import Mathlib

/-!
Verification development for the Trade Republic PDF ingestion engine
(tools/investos/ingest.py).

The engine is shallowly embedded over text modelled as `List Char`
(the ASCII/Latin subset that the document family uses); Python floats
are modelled as exact decimal numbers; the concrete regular expressions
of the source are modelled by explicit position scans that implement the
same leftmost / greedy / backtracking discipline those patterns have.
-/

namespace InvestOS

def chars (s : String) : List Char := s.data

/-- Python word character for the purposes of the `\b` anchors: ASCII word
characters plus the German letters this document family uses (Python's
`\w` covers all Unicode letters). -/
def isWordChar (c : Char) : Bool :=
  c.isAlphanum || c == '_' || c == 'ä' || c == 'ö' || c == 'ü' || c == 'Ä' ||
    c == 'Ö' || c == 'Ü' || c == 'ß'

/-- Python whitespace for the purposes of the whitespace classes (ASCII model). -/
def isWs (c : Char) : Bool :=
  c == ' ' || c == '\t' || c == '\n' || c == '\r' || c == '\x0b' || c == '\x0c'

/-- Case folding used by the IGNORECASE patterns (ASCII plus the umlaut in Stück). -/
def lcase (c : Char) : Char := if c == 'Ü' then 'ü' else c.toLower

/-- Python str.strip(): drop leading and trailing whitespace. -/
def stripWs (s : List Char) : List Char :=
  ((s.dropWhile isWs).reverse.dropWhile isWs).reverse

def countC (a : Char) (s : List Char) : Nat := s.countP (· == a)

/-- Python str.replace(a, b) for single characters. -/
def replaceC (a b : Char) (s : List Char) : List Char :=
  s.map fun c => if c == a then b else c

/-- Python str.replace(a, '') for a single character. -/
def removeC (a : Char) (s : List Char) : List Char := s.filter fun c => !(c == a)

/-- Python str.replace(a, '', n): remove only the first n occurrences. -/
def removeFirstN (a : Char) : Nat → List Char → List Char
  | _, [] => []
  | 0, s => s
  | n + 1, c :: s =>
      if c == a then removeFirstN a n s else c :: removeFirstN a (n + 1) s

/-- Python str.rfind for a single character (index of its last occurrence). -/
def rfindPos (a : Char) (s : List Char) : Option Nat :=
  (s.enum.filterMap fun p => if p.2 == a then some p.1 else none).getLast?

/-- Value of a digit string, most significant digit first. -/
def digitsVal (l : List Char) : Nat := l.foldl (fun acc c => acc * 10 + (c.toNat - 48)) 0

/-- Exact decimal numbers: num / 10 ^ exp.  The parsed amounts in this
document family are such decimals, and the only operations the engine
performs on them are sign tests and order comparisons, which agree with
the float ones; keeping the mantissa/exponent form unevaluated makes
every pipeline value kernel-computable. -/
structure Dec where
  num : Int
  exp : Nat
deriving DecidableEq, Repr

/-- The rational value of an exact decimal. -/
def Dec.toRat (d : Dec) : ℚ := (d.num : ℚ) / (10 : ℚ) ^ d.exp

/-- Python `v > 0` on a parsed value. -/
def Dec.isPos (d : Dec) : Bool := decide (0 < d.num)

/-- Python `a < b` on parsed values (cross-multiplied order). -/
def Dec.blt (a b : Dec) : Bool :=
  decide (a.num * (10 : Int) ^ b.exp < b.num * (10 : Int) ^ a.exp)

/-- Python float() on the decimal strings this engine can feed it:
an optional sign, then digits with at most one decimal point and at
least one digit overall; every other string raises, modelled as none. -/
def pyFloat (s : List Char) : Option Dec :=
  let sg : Int := match s with
    | '+' :: _ => 1
    | '-' :: _ => -1
    | _ => 1
  let t : List Char := match s with
    | '+' :: r => r
    | '-' :: r => r
    | r => r
  let ip := t.takeWhile Char.isDigit
  let rest := t.drop ip.length
  match rest with
  | [] => if ip.isEmpty then none else some ⟨sg * digitsVal ip, 0⟩
  | '.' :: fp =>
      if fp.all Char.isDigit && !(ip.isEmpty && fp.isEmpty) then
        some ⟨sg * (digitsVal ip * 10 ^ fp.length + digitsVal fp), fp.length⟩
      else none
  | _ => none

/-- TradeRepublicParser._parse_number: locale-aware numeric token parsing. -/
def parse_number (num0 : List Char) : Option Dec :=
  if num0.isEmpty then none
  else
    let s0 := (stripWs num0).filter fun c => !(c == ' ')
    let cc := countC ',' s0
    let dc := countC '.' s0
    let s1 :=
      if 0 < cc && 0 < dc then
        if (rfindPos ',' s0).getD 0 > (rfindPos '.' s0).getD 0 then
          replaceC ',' '.' (removeC '.' s0)
        else removeC ',' s0
      else if 1 < cc then removeC ',' s0
      else if 1 < dc then removeFirstN '.' (dc - 1) s0
      else if cc == 1 then replaceC ',' '.' s0
      else s0
    pyFloat s1

/-- Python str(n) on the two-digit range the ISIN expansion produces. -/
def natToDigitChars (n : Nat) : List Char :=
  if n < 10 then [Char.ofNat (48 + n)]
  else [Char.ofNat (48 + n / 10), Char.ofNat (48 + n % 10)]

/-- One character's contribution to the digit string of is_valid_isin:
digits pass through, uppercase letters expand to str() of their two-digit
value, anything else aborts the function with False. -/
def isinDigitChunk (c : Char) : Option (List Char) :=
  if c.isDigit then some [c]
  else if c.isAlpha && c.isUpper then some (natToDigitChars (c.toNat - 65 + 10))
  else none

/-- The digit-string building loop of is_valid_isin, concatenating the
per-character chunks left to right. -/
def isinDigitString : List Char → Option (List Char)
  | [] => some []
  | c :: rest =>
      match isinDigitChunk c, isinDigitString rest with
      | some ds, some rest' => some (ds ++ rest')
      | _, _ => none

/-- One summand of the Luhn pass of is_valid_isin: i is the 0-indexed
position from the right, d the digit value there. -/
def luhnStep (i : Nat) (d : Nat) : Nat :=
  if i % 2 == 1 then
    let d2 := d * 2
    if d2 > 9 then d2 / 10 + d2 % 10 else d2
  else d

/-- is_valid_isin from ingest.py: format checks then the Luhn mod-10
checksum; the slice isin[2:11] is written out as drop-two-take-nine. -/
def is_valid_isin (isin : List Char) : Bool :=
  if isin.isEmpty || !(isin.length == 12) then false
  else if !((isin.take 2).all Char.isAlpha) || !((isin.take 2).all Char.isUpper) then false
  else if !((isin.getLastD ' ').isDigit) then false
  else if ((isin.drop 2).take 9).isEmpty || !(((isin.drop 2).take 9).all Char.isAlphanum)
    then false
  else if !(((isin.drop 2).take 9).all fun c => c.isDigit || (c.isAlpha && c.isUpper))
    then false
  else
    match isinDigitString isin with
    | none => false
    | some ds =>
        ((ds.reverse.enum).foldl (fun t p => t + luhnStep p.1 (p.2.toNat - 48)) 0) % 10 == 0

/-! ### Regular-expression models

Each of the concrete patterns in ingest.py is modelled by a scan that
reproduces its leftmost-match, greedy and backtracking behaviour. -/

/-- Case-insensitive literal match at the head of a string. -/
def startsWithCI : List Char → List Char → Bool
  | [], _ => true
  | _ :: _, [] => false
  | p :: ps, c :: cs => lcase c == lcase p && startsWithCI ps cs

/-- Case-sensitive literal match at the head of a string. -/
def startsWithCS : List Char → List Char → Bool
  | [], _ => true
  | _ :: _, [] => false
  | p :: ps, c :: cs => c == p && startsWithCS ps cs

/-- True when position i of s does not hold a word character
(off-the-end positions count as non-word, as for the regex edges). -/
def nonWordAt (s : List Char) (i : Nat) : Bool :=
  match s.get? i with
  | some c => !isWordChar c
  | none => true

/-- A \b position just before index i (i is the start of word material). -/
def boundaryBefore (s : List Char) (i : Nat) : Bool :=
  i == 0 || nonWordAt s (i - 1)

/-- re.search(r'\bWORD\b', line, re.IGNORECASE) for a literal word. -/
def containsWordCI (w : List Char) (s : List Char) : Bool :=
  (List.range (s.length + 1)).any fun i =>
    boundaryBefore s i && startsWithCI w (s.drop i) && nonWordAt s (i + w.length)

/-- Substring containment, case sensitive (Python `in`). -/
def isSubstrOf (pat s : List Char) : Bool :=
  (List.range (s.length + 1)).any fun i => startsWithCS pat (s.drop i)

/-- Length of the maximal digit run starting at position p. -/
def digRun (s : List Char) (p : Nat) : Nat :=
  ((s.drop p).takeWhile Char.isDigit).length

/-- True when position i of s holds a digit. -/
def digitAt (s : List Char) (i : Nat) : Bool :=
  match s.get? i with
  | some c => c.isDigit
  | none => false

/-- The date pattern `\b\d\d\.\d\d\.\d\d\d\d\b` matching at position i. -/
def dateTokenAt (s : List Char) (i : Nat) : Bool :=
  boundaryBefore s i &&
  digitAt s i && digitAt s (i + 1) && (s.get? (i + 2) == some '.') &&
  digitAt s (i + 3) && digitAt s (i + 4) && (s.get? (i + 5) == some '.') &&
  digitAt s (i + 6) && digitAt s (i + 7) && digitAt s (i + 8) && digitAt s (i + 9) &&
  nonWordAt s (i + 10)

def hasDateToken (s : List Char) : Bool :=
  (List.range (s.length + 1)).any fun i => dateTokenAt s i

/-- The suffix part `\s*(Stk\.?|Stück|Anteile)\s*$` of the quantity patterns. -/
def qtyUnitToEnd (r : List Char) : Bool :=
  let u := r.dropWhile isWs
  (startsWithCI (chars "stk") u &&
    (let v := u.drop 3
     (v.dropWhile isWs).isEmpty ||
       (v.head? == some '.' && ((v.drop 1).dropWhile isWs).isEmpty))) ||
  (startsWithCI (chars "stück") u && ((u.drop 5).dropWhile isWs).isEmpty) ||
  (startsWithCI (chars "anteile") u && ((u.drop 7).dropWhile isWs).isEmpty)

/-- The prefix part `^\s*([0-9][0-9\.,]*)` shared by the quantity patterns;
returns the captured numeric group and the rest of the line. -/
def qtyNumGroup (s : List Char) : Option (List Char × List Char) :=
  let t := s.dropWhile isWs
  match t.head? with
  | some c =>
      if c.isDigit then
        let g := t.takeWhile fun c => c.isDigit || c == '.' || c == ','
        some (g, t.drop g.length)
      else none
  | none => none

/-- next_holding_pattern / qty_line_pattern:
`^\s*[0-9][0-9\.,]*\s*(Stk\.?|Stück|Anteile)\s*$` (IGNORECASE). -/
def qtyLineMatch (s : List Char) : Bool :=
  match qtyNumGroup s with
  | some (_, r) => qtyUnitToEnd r
  | none => false

/-- number_first_pattern with its captured group:
`^\s*([0-9][0-9\.,]*)\s*(Stk\.?|Stück|Anteile)\s*$` (IGNORECASE). -/
def numberFirstGroup (s : List Char) : Option (List Char) :=
  match qtyNumGroup s with
  | some (g, r) => if qtyUnitToEnd r then some g else none
  | none => none

/-- The continuation `\s*[:=]?\s*([0-9][0-9\.,\s]*)` after a quantity label. -/
def qtyLabelCont (r : List Char) : Option (List Char) :=
  let r1 := r.dropWhile isWs
  let r2 := match r1.head? with
    | some c => if c == ':' || c == '=' then r1.drop 1 else r1
    | none => r1
  let r3 := r2.dropWhile isWs
  match r3.head? with
  | some c =>
      if c.isDigit then
        some (r3.takeWhile fun c => c.isDigit || c == '.' || c == ',' || isWs c)
      else none
  | none => none

/-- Match one of the quantity labels `Stk\.?|Stück|Anteile|Qty|Quantity` at the
head of t (IGNORECASE); returns how many characters it consumed. -/
def qtyLabelAt (t : List Char) : Option Nat :=
  if startsWithCI (chars "stk") t then
    some (if t.get? 3 == some '.' then 4 else 3)
  else if startsWithCI (chars "stück") t then some 5
  else if startsWithCI (chars "anteile") t then some 7
  else if startsWithCI (chars "quantity") t then some 8
  else if startsWithCI (chars "qty") t then some 3
  else none

/-- re.search of the label-first quantity pattern
`(Stk\.?|Stück|Anteile|Qty|Quantity)\s*[:=]?\s*([0-9][0-9\.,\s]*)`
(IGNORECASE) over the block text; returns the captured number group. -/
def searchQtyLabel (s : List Char) : Option (List Char) :=
  (List.range (s.length + 1)).findSome? fun i =>
    match qtyLabelAt (s.drop i) with
    | some n => qtyLabelCont (s.drop (i + n))
    | none => none

/-- The header pattern `\bKURSWERT\s+IN\s+EUR\b` (IGNORECASE) matching at
position i. -/
def kurswertHeaderAt (s : List Char) (i : Nat) : Bool :=
  boundaryBefore s i && startsWithCI (chars "kurswert") (s.drop i) &&
  (let r1 := (s.drop (i + 8))
   let w1 := (r1.takeWhile isWs).length
   !(w1 == 0) && startsWithCI (chars "in") (r1.drop w1) &&
   (let r2 := r1.drop (w1 + 2)
    let w2 := (r2.takeWhile isWs).length
    !(w2 == 0) && startsWithCI (chars "eur") (r2.drop w2) &&
    nonWordAt s (i + 8 + w1 + 2 + w2 + 3)))

/-- re.search of `\bKURSWERT\s+IN\s+EUR\b` (IGNORECASE) over the block text. -/
def hasKurswertHeader (s : List Char) : Bool :=
  (List.range (s.length + 1)).any fun i => kurswertHeaderAt s i

/-- The currency alternation `EUR|USD|GBP|CHF` (case sensitive) with a \b on
both sides, matching at position i; returns the matched code. -/
def currencyAt (s : List Char) (i : Nat) : Option (List Char) :=
  if boundaryBefore s i && startsWithCS (chars "EUR") (s.drop i) && nonWordAt s (i + 3) then
    some (chars "EUR")
  else if boundaryBefore s i && startsWithCS (chars "USD") (s.drop i) && nonWordAt s (i + 3) then
    some (chars "USD")
  else if boundaryBefore s i && startsWithCS (chars "GBP") (s.drop i) && nonWordAt s (i + 3) then
    some (chars "GBP")
  else if boundaryBefore s i && startsWithCS (chars "CHF") (s.drop i) && nonWordAt s (i + 3) then
    some (chars "CHF")
  else none

/-- The method _extract_currency: CURRENCY_PATTERN.search over the block text,
defaulting to EUR when no code occurs. -/
def extract_currency (s : List Char) : List Char :=
  match (List.range (s.length + 1)).findSome? (fun i => currencyAt s i) with
  | some c => c
  | none => chars "EUR"

/-- ISIN_PATTERN `\b([A-Z]2[A-Z0-9]10)\b` (case sensitive) matching at i. -/
def isUpperAZ (c : Char) : Bool := 'A' ≤ c && c ≤ 'Z'

def isUpperOrDigit (c : Char) : Bool := isUpperAZ c || c.isDigit

def isinTokenAt (s : List Char) (i : Nat) : Bool :=
  boundaryBefore s i &&
  (match s.get? i with | some c => isUpperAZ c | none => false) &&
  (match s.get? (i + 1) with | some c => isUpperAZ c | none => false) &&
  ((List.range 10).all fun k =>
    match s.get? (i + 2 + k) with | some c => isUpperOrDigit c | none => false) &&
  nonWordAt s (i + 12)

/-- ISIN_PATTERN.finditer over one line.  Two matches of this fixed-width
pattern can never overlap (all twelve characters are word characters, so a
second match cannot start inside a first one without breaking its leading
\b), hence finditer returns exactly the positions where the pattern holds,
in order. -/
def isinCandidatesInLine (s : List Char) : List (List Char) :=
  (List.range (s.length + 1)).filterMap fun i =>
    if isinTokenAt s i then some ((s.drop i).take 12) else none

/-! The broad money pattern `\b([0-9]+(?:[.,][0-9]+)*)\b`.

The regex engine matches the leading digit run and the separator groups
greedily; when the trailing \b fails it backtracks.  Shrinking a digit run
leaves the match ending just before another digit, where \b fails again, so
the only productive backtracking is dropping trailing separator groups
wholesale; `moneyEnd` implements exactly that discipline. -/

def moneyEnd (s : List Char) : Nat → Nat → Option Nat
  | 0, _ => none
  | fuel + 1, p =>
      let withGroup :=
        if (s.get? p == some '.' || s.get? p == some ',') && !(digRun s (p + 1) == 0) then
          moneyEnd s fuel (p + 1 + digRun s (p + 1))
        else none
      match withGroup with
      | some e => some e
      | none => if nonWordAt s p then some p else none

/-- A money-pattern match starting at position i: requires the leading \b,
at least one digit, then the greedy tail; returns the end position. -/
def moneyMatchAt (s : List Char) (i : Nat) : Option Nat :=
  if boundaryBefore s i && !(digRun s i == 0) then
    moneyEnd s (s.length + 1) (i + digRun s i)
  else none

/-- money_pattern.finditer over one line: scan left to right, resume after
each match (matches are nonempty, so this terminates). -/
def moneyFindIter (s : List Char) : Nat → Nat → List (List Char)
  | 0, _ => []
  | fuel + 1, start =>
      if s.length ≤ start then []
      else
        match moneyMatchAt s start with
        | some e => ((s.drop start).take (e - start)) :: moneyFindIter s fuel e
        | none => moneyFindIter s fuel (start + 1)

def moneyTokens (s : List Char) : List (List Char) :=
  moneyFindIter s (s.length + 1) 0

/-- The currency alternation of the labeled value patterns, matched
case-insensitively (those patterns carry re.IGNORECASE). -/
def currencyWordCIAt (t : List Char) : Bool :=
  startsWithCI (chars "eur") t || startsWithCI (chars "usd") t ||
  startsWithCI (chars "gbp") t || startsWithCI (chars "chf") t

/-- The currency alternation matched case-sensitively (the per-line
number_pattern in _extract_market_value_labeled has no IGNORECASE). -/
def currencyWordCSAt (t : List Char) : Bool :=
  startsWithCS (chars "EUR") t || startsWithCS (chars "USD") t ||
  startsWithCS (chars "GBP") t || startsWithCS (chars "CHF") t

/-- The continuation `\s*[:=]?\s*([0-9][0-9\.,\s]*)\s*(?:EUR|USD|GBP|CHF)`
after a value label.  The captured group is greedy and its class contains
all whitespace, so the trailing `\s*` is empty and the currency word must
follow the group directly; shrinking the group only re-tests the currency
at class characters, so no other backtracking can succeed. -/
def labeledValueCont (r : List Char) : Option (List Char) :=
  let r1 := r.dropWhile isWs
  let r2 := match r1.head? with
    | some c => if c == ':' || c == '=' then r1.drop 1 else r1
    | none => r1
  let r3 := r2.dropWhile isWs
  match r3.head? with
  | some c =>
      if c.isDigit then
        let g := r3.takeWhile fun c => c.isDigit || c == '.' || c == ',' || isWs c
        if currencyWordCIAt (r3.drop g.length) then some g else none
      else none
  | none => none

/-- Match one of the given literal labels at the head of t (IGNORECASE);
the alternations used here have pairwise distinct first letters, so at most
one label can match at a given position. -/
def labelAltAt (labels : List (List Char)) (t : List Char) : Option Nat :=
  labels.findSome? fun lab => if startsWithCI lab t then some lab.length else none

/-- re.search of a labeled value pattern over the block text: leftmost
position whose label and continuation both match; returns the group. -/
def searchLabeledValue (labels : List (List Char)) (s : List Char) : Option (List Char) :=
  (List.range (s.length + 1)).findSome? fun i =>
    match labelAltAt labels (s.drop i) with
    | some n => labeledValueCont (s.drop (i + n))
    | none => none

/-- The word search `\b(Wert|Kurswert|Gesamtwert|Value)\b` (IGNORECASE) in a line. -/
def hasWertWord (s : List Char) : Bool :=
  containsWordCI (chars "wert") s || containsWordCI (chars "kurswert") s ||
  containsWordCI (chars "gesamtwert") s || containsWordCI (chars "value") s

/-- The per-line fallback `([0-9][0-9\.,\s]*)\s*(?:EUR|USD|GBP|CHF)`:
leftmost digit position whose greedy group is followed by a currency code. -/
def lineNumberCurrency (s : List Char) : Option (List Char) :=
  (List.range (s.length + 1)).findSome? fun i =>
    match (s.drop i).head? with
    | some c =>
        if c.isDigit then
          let t := s.drop i
          let g := t.takeWhile fun c => c.isDigit || c == '.' || c == ',' || isWs c
          if currencyWordCSAt (t.drop g.length) then some g else none
        else none
    | none => none

/-- The label alternatives of field_label_pattern (lowercased), except the
`Stk\.?` alternative which is handled separately. -/
def fieldLabelList : List (List Char) :=
  [chars "isin", chars "wkn", chars "stück", chars "anteile", chars "kurs",
   chars "einstandskurs", chars "wert", chars "kurswert", chars "gesamtwert",
   chars "gewinn", chars "verlust", chars "depot", chars "positionen",
   chars "position", chars "datum", chars "seite", chars "page", chars "portfolio"]

/-- The `\s*[:=]` continuation of field_label_pattern. -/
def labelSep (r : List Char) : Bool :=
  match (r.dropWhile isWs).head? with
  | some c => c == ':' || c == '='
  | none => false

/-- field_label_pattern.match: `^\s*(ISIN|WKN|Stück|Stk\.?|Anteile|Kurs|...)\s*[:=]`
(IGNORECASE); the regex engine tries every alternative with the
continuation, so a boolean disjunction over them is exact. -/
def fieldLabelMatch (line : List Char) : Bool :=
  let t := line.dropWhile isWs
  (fieldLabelList.any fun lab => startsWithCI lab t && labelSep (t.drop lab.length)) ||
  (startsWithCI (chars "stk") t &&
    (labelSep (t.drop 3) || (t.get? 3 == some '.' && labelSep (t.drop 4))))

/-- re.search(r'\bISIN\s*:', line, re.IGNORECASE). -/
def isinColonSearch (s : List Char) : Bool :=
  (List.range (s.length + 1)).any fun i =>
    boundaryBefore s i && startsWithCI (chars "isin") (s.drop i) &&
    (((s.drop (i + 4)).dropWhile isWs).head? == some ':')

/-- The end markers `\b(GESAMT|TOTAL|Summe)\b` (IGNORECASE) of the holdings
section. -/
def sectionEndLine (s : List Char) : Bool :=
  containsWordCI (chars "gesamt") s || containsWordCI (chars "total") s ||
  containsWordCI (chars "summe") s

/-! ### Text plumbing -/

/-- Python text.split(chr(10)): keeps empty pieces, one piece even when empty. -/
def splitLines : List Char → List (List Char)
  | [] => [[]]
  | c :: rest =>
      if c == '\n' then [] :: splitLines rest
      else
        match splitLines rest with
        | l :: ls => (c :: l) :: ls
        | [] => [[c]]

/-- chr(10).join(...) as used for block_text. -/
def joinLines (ls : List (List Char)) : List Char := List.intercalate ['\n'] ls

/-- Collapse adjacent whitespace, keeping the last character of each run. -/
def squeezeWs : List Char → List Char
  | [] => []
  | [c] => [c]
  | a :: b :: rest =>
      if isWs a && isWs b then squeezeWs (b :: rest)
      else a :: squeezeWs (b :: rest)

/-- re.sub(r'\s+', ' ', name).strip() applied when assembling a name. -/
def cleanName (s : List Char) : List Char :=
  stripWs ((squeezeWs s).map fun c => if isWs c then ' ' else c)

/-! ### Field extractors -/

/-- A line rejected as a name because more than half its characters are digits. -/
def nameRejectDigits (line : List Char) : Bool :=
  let dcount := (line.filter Char.isDigit).length
  !(dcount == 0) && line.length / 2 < dcount

/-- The scan of _extract_name over the candidate indices above the ISIN line:
the first surviving line is accepted and the loop breaks, a field label
breaks with nothing collected, skipped lines continue downward. -/
def nameLoop (blockLines : List (List Char)) (isin : List Char) :
    List Nat → Option (List Char)
  | [] => none
  | i :: rest =>
      if blockLines.length ≤ i then nameLoop blockLines isin rest
      else
        let line := stripWs (blockLines.getD i [])
        if line.isEmpty then nameLoop blockLines isin rest
        else if fieldLabelMatch line then none
        else if nameRejectDigits line then nameLoop blockLines isin rest
        else if isSubstrOf isin line || isinColonSearch line then nameLoop blockLines isin rest
        else some (cleanName line)

/-- The method _extract_name: scan up to four lines above the ISIN line, closest first. -/
def extract_name (blockLines : List (List Char)) (isinOffset : Nat) (isin : List Char) :
    Option (List Char) :=
  nameLoop blockLines isin ((List.range (min isinOffset 4)).map fun k => isinOffset - 1 - k)

inductive QtyMethod where
  | numberFirst (line : Nat)
  | labelFirst
deriving DecidableEq, Repr

/-- The method _extract_quantity_with_meta: the number-first pattern on each line in
order, then the label-first pattern over the whole block text. -/
def extract_quantity_with_meta (blockLines : List (List Char)) (blockStart : Nat) :
    Option Dec × Option QtyMethod :=
  match blockLines.enum.findSome? (fun p =>
      match numberFirstGroup p.2 with
      | some g =>
          match parse_number g with
          | some q =>
              if q.isPos then some (q, QtyMethod.numberFirst (blockStart + p.1)) else none
          | none => none
      | none => none) with
  | some (q, m) => (some q, some m)
  | none =>
      match searchQtyLabel (joinLines blockLines) with
      | some g =>
          match parse_number g with
          | some q =>
              if q.isPos then (some q, some QtyMethod.labelFirst) else (none, none)
          | none => (none, none)
      | none => (none, none)

structure MoneyCand where
  idx : Nat
  val : Dec
  tok : List Char
deriving DecidableEq, Repr

/-- The money-candidate collection of _extract_market_value_column_based:
quantity lines are skipped entirely; each money token with a separator that
parses to a positive number becomes a candidate tagged with its line index. -/
def moneyCandidates (blockLines : List (List Char)) : List MoneyCand :=
  (List.range blockLines.length).flatMap fun i =>
    let line := blockLines.getD i []
    if qtyLineMatch line then []
    else
      (moneyTokens line).filterMap fun numStr =>
        if numStr.contains ',' || numStr.contains '.' then
          match parse_number numStr with
          | some v => if v.isPos then some ⟨i, v, numStr⟩ else none
          | none => none
        else none

/-- Python max(..., key=...): the first element of maximal key. -/
def pyMaxBy : MoneyCand → List MoneyCand → MoneyCand
  | best, [] => best
  | best, c :: cs => pyMaxBy (if Dec.blt best.val c.val then c else best) cs

inductive MvMethod where
  | largestAfterDate (line : Nat)
  | singleAfterDate (line : Nat)
  | largestInBlock (line : Nat)
  | labeledPattern
  | wertLine (line : Nat)
deriving DecidableEq, Repr

/-- The parser-instance state the extraction threads: the append-only
warnings list and the once-per-parse no-date-warning flag. -/
structure PState where
  warnings : List (List Char)
  warnedNoDate : Bool
deriving DecidableEq, Repr

def pstate0 : PState := ⟨[], false⟩

def noDateWarnMsg : List Char :=
  chars "No date lines found in table layout, using fallback for market value"

/-- The method _extract_market_value_column_based: date-anchored candidate selection. -/
def extract_market_value_column_based (blockLines : List (List Char)) (blockStart : Nat)
    (st : PState) : Option (Dec × MvMethod) × PState :=
  match moneyCandidates blockLines with
  | [] => (none, st)
  | c0 :: cs0 =>
      match blockLines.findIdx? hasDateToken with
      | some d =>
          match (c0 :: cs0).filter fun c => decide (d < c.idx) && decide (c.idx ≤ d + 4) with
          | c :: c' :: cs =>
              let best := pyMaxBy c (c' :: cs)
              (some (best.val, MvMethod.largestAfterDate (blockStart + best.idx)), st)
          | [c] =>
              (some (c.val, MvMethod.singleAfterDate (blockStart + c.idx)), st)
          | [] =>
              let best := pyMaxBy c0 cs0
              (some (best.val, MvMethod.largestInBlock (blockStart + best.idx)), st)
      | none =>
          let best := pyMaxBy c0 cs0
          let st' : PState :=
            if !st.warnedNoDate then
              { warnings := st.warnings ++ [noDateWarnMsg], warnedNoDate := true }
            else st
          (some (best.val, MvMethod.largestInBlock (blockStart + best.idx)), st')

/-- The method _extract_market_value_labeled: labeled patterns over the block text,
then the per-line Wert fallback. -/
def extract_market_value_labeled (blockLines : List (List Char)) (blockStart : Nat) :
    Option (Dec × MvMethod) :=
  let blockText := joinLines blockLines
  let tryA :=
    match searchLabeledValue [chars "wert", chars "kurswert", chars "gesamtwert"] blockText with
    | some g =>
        match parse_number g with
        | some v => if v.isPos then some ((v, MvMethod.labeledPattern)) else none
        | none => none
    | none => none
  match tryA with
  | some r => some r
  | none =>
      let tryB :=
        match searchLabeledValue [chars "value", chars "market value"] blockText with
        | some g =>
            match parse_number g with
            | some v => if v.isPos then some ((v, MvMethod.labeledPattern)) else none
            | none => none
        | none => none
      match tryB with
      | some r => some r
      | none =>
          blockLines.enum.findSome? fun p =>
            if hasWertWord p.2 then
              match lineNumberCurrency p.2 with
              | some g =>
                  match parse_number g with
                  | some v =>
                      if v.isPos then some ((v, MvMethod.wertLine (blockStart + p.1))) else none
                  | none => none
              | none => none
            else none

/-- The method _extract_market_value_with_meta: column-based extraction when the block
carries the KURSWERT IN EUR header, labeled extraction otherwise. -/
def extract_market_value_with_meta (blockLines : List (List Char)) (blockStart : Nat)
    (st : PState) : Option (Dec × MvMethod) × PState :=
  if hasKurswertHeader (joinLines blockLines) then
    extract_market_value_column_based blockLines blockStart st
  else
    (extract_market_value_labeled blockLines blockStart, st)

/-! ### Row assembly -/

structure MarketData where
  market_value : Dec
  currency : List Char
deriving DecidableEq, Repr

structure Holding where
  security_id : List Char
  isin : List Char
  name : List Char
  quantity : Option Dec
  currency : List Char
  cost_basis : Option Dec
  market_data : Option MarketData
deriving DecidableEq, Repr

/-- The holding dict literal at the end of _parse_holding_block. -/
def mkHolding (isin name : List Char) (qty : Option Dec) (curr : List Char)
    (mv : Option Dec) : Holding :=
  { security_id := isin, isin := isin, name := name, quantity := qty,
    currency := curr, cost_basis := none,
    market_data := match mv with
      | some v => some ⟨v, curr⟩
      | none => none }

def unknownNameOf (isin : List Char) : List Char := chars "Unknown (" ++ isin ++ chars ")"

def nameWarnOf (isin : List Char) : List Char := chars "Could not extract name for " ++ isin

def qtyWarnOf (isin : List Char) : List Char := chars "Could not extract quantity for " ++ isin

def mvWarnOf (isin : List Char) : List Char :=
  chars "Could not extract market value for " ++ isin

/-- The block-boundary computation of _parse_holding_block: look back up to
eight lines, do not overlap a previous ISIN-labelled row (preferring the
first empty line after it), stop before the next ISIN-labelled line or
after twenty lines, and trim at the second quantity-marker line after the
ISIN (the first one belongs to the current row). -/
def blockLinesOf (idx : Nat) (allLines : List (List Char)) (labels : List Nat) :
    Nat × List (List Char) :=
  let bs0 := idx - 8
  let blockStart := match (labels.filter fun l => decide (l < idx)).getLast? with
    | some p =>
        let cs0 := p + 1
        let cs := match (List.range' cs0 (idx - cs0)).find?
            (fun i => decide (i < allLines.length) && (stripWs (allLines.getD i [])).isEmpty) with
          | some i => i + 1
          | none => cs0
        max bs0 cs
    | none => bs0
  let blockEnd := match labels.find? fun l => decide (idx < l) with
    | some n => n
    | none => min allLines.length (idx + 20)
  let bl0 := (allLines.drop blockStart).take (blockEnd - blockStart)
  let isinOffset := idx - blockStart
  let qtyIdxs := (List.range' (isinOffset + 1) (bl0.length - (isinOffset + 1))).filter
    fun i => qtyLineMatch (bl0.getD i [])
  let bl := match qtyIdxs with
    | _ :: second :: _ => bl0.take second
    | _ => bl0
  (blockStart, bl)

/-- The `if not name or chr(73) in name` test of _parse_holding_block:
a missing or empty name, or one containing the literal ISIN marker. -/
def nameFailed (n : Option (List Char)) : Bool :=
  match n with
  | none => true
  | some s => s.isEmpty || isSubstrOf (chars "ISIN") s

/-- The method _parse_holding_block: extract all fields from the block around a
validated ISIN, record per-field warnings, and always emit the holding. -/
def parse_holding_block (isin : List Char) (idx : Nat) (allLines : List (List Char))
    (labels : List Nat) (st : PState) : Option Holding × PState :=
  let bsbl := blockLinesOf idx allLines labels
  let bs := bsbl.1
  let bl := bsbl.2
  let blockText := joinLines bl
  let name0 := extract_name bl (idx - bs) isin
  let qty := (extract_quantity_with_meta bl bs).1
  let mvSt := extract_market_value_with_meta bl bs st
  let mv : Option Dec := mvSt.1.map (·.1)
  let st1 := mvSt.2
  let curr := extract_currency blockText
  let nameWs : List Char × List (List Char) :=
    if nameFailed name0 then (unknownNameOf isin, [nameWarnOf isin])
    else (name0.getD [], [])
  let ws2 := if qty.isNone then nameWs.2 ++ [qtyWarnOf isin] else nameWs.2
  let ws3 := if mv.isNone then ws2 ++ [mvWarnOf isin] else ws2
  let st2 : PState := { st1 with warnings := st1.warnings ++ ws3 }
  (some (mkHolding isin nameWs.1 qty curr mv), st2)

/-! ### Document-level scanning -/

/-- The method _find_holdings_section: the POSITIONEN header line and the first
GESAMT/TOTAL/Summe line at or after it. -/
def find_holdings_section (lines : List (List Char)) : Nat × Nat :=
  let sStart := match lines.findIdx? (containsWordCI (chars "positionen")) with
    | some i => i
    | none => 0
  let sEnd := match (List.range' sStart (lines.length - sStart)).find?
      (fun i => sectionEndLine (lines.getD i [])) with
    | some i => i
    | none => lines.length
  (sStart, sEnd)

/-- The method _find_isin_lines: indices of the lines mentioning the ISIN label. -/
def find_isin_lines (lines : List (List Char)) : List Nat :=
  (List.range lines.length).filter fun i => containsWordCI (chars "isin") (lines.getD i [])

/-- The line indices parse_holdings_table scans: within two lines of an
ISIN label (clipped to the holdings section) when labels exist, the whole
holdings section otherwise; sorted(set(...)) is an ascending filter. -/
def searchLinesOf (sStart sEnd : Nat) (labels : List Nat) : List Nat :=
  if labels.isEmpty then List.range' sStart (sEnd - sStart)
  else
    (List.range sEnd).filter fun i =>
      decide (sStart ≤ i) && labels.any fun l => decide (l - 2 ≤ i) && decide (i ≤ l + 2)

/-- The accumulator of the candidate scan: processed ISINs, emitted
holdings, parser state. -/
def TableAcc : Type := List (List Char) × List Holding × PState

/-- The body of the inner candidate loop of parse_holdings_table. -/
def processCandidate (allLines : List (List Char)) (labels : List Nat) (i : Nat)
    (acc : TableAcc) (cand : List Char) : TableAcc :=
  let processed := acc.1
  let holdings := acc.2.1
  let st := acc.2.2
  if processed.contains cand then acc
  else if !(is_valid_isin cand) then acc
  else
    let hSt := parse_holding_block cand i allLines labels st
    match hSt.1 with
    | some h => (cand :: processed, holdings ++ [h], hSt.2)
    | none => (cand :: processed, holdings, hSt.2)

/-- The body of the outer line loop of parse_holdings_table. -/
def processLine (allLines : List (List Char)) (labels : List Nat)
    (acc : TableAcc) (i : Nat) : TableAcc :=
  if allLines.length ≤ i then acc
  else (isinCandidatesInLine (allLines.getD i [])).foldl (processCandidate allLines labels i) acc

/-- parse_holdings_table: find the holdings section and the ISIN label
lines, then scan the selected lines for checksum-valid ISIN candidates,
emitting one holding per first occurrence. -/
def parse_holdings_table (text : List Char) (st : PState) : List Holding × PState :=
  let lines := splitLines text
  let se := find_holdings_section lines
  let labels := find_isin_lines lines
  let searchLines := searchLinesOf se.1 se.2 labels
  let acc := searchLines.foldl (processLine lines labels) (([], [], st) : TableAcc)
  (acc.2.1, acc.2.2)

/-- detect_scanned_pdf: fewer than 100 stripped characters. -/
def detect_scanned_pdf (text : List Char) : Bool :=
  decide ((stripWs text).length < 100)

structure CashPos where
  currency : List Char
  amount : Dec
  cash_type : List Char
deriving DecidableEq, Repr

/-- The cash keywords `\b(Cash|Guthaben|Verfügbar|Available)\b` (IGNORECASE). -/
def cashWordLine (s : List Char) : Bool :=
  containsWordCI (chars "cash") s || containsWordCI (chars "guthaben") s ||
  containsWordCI (chars "verfügbar") s || containsWordCI (chars "available") s

/-- One match of the cash number pattern
`([-+]?\d1,3(?:[,.\s]\d3)*(?:[.,]\d+)?)` starting at position i: the
pattern has no continuation after it, so its greedy path always stands;
returns the end position. -/
def cashNumEndAt (s : List Char) (i : Nat) : Option Nat :=
  let j := match s.get? i with
    | some c => if c == '+' || c == '-' then i + 1 else i
    | none => i
  let r := digRun s j
  if r == 0 then none
  else
    let p0 := j + min r 3
    let p1 := cashGroups s (s.length + 1) p0
    let p2 :=
      match s.get? p1 with
      | some c =>
          if (c == '.' || c == ',') && !(digRun s (p1 + 1) == 0) then
            p1 + 1 + digRun s (p1 + 1)
          else p1
      | none => p1
    some p2
where
  /-- the greedy `(?:[,.\s]\d3)*` loop. -/
  cashGroups (s : List Char) : Nat → Nat → Nat
    | 0, p => p
    | fuel + 1, p =>
        match s.get? p with
        | some c =>
            if (c == '.' || c == ',' || isWs c) && 3 ≤ digRun s (p + 1) then
              cashGroups s fuel (p + 1 + 3)
            else p
        | none => p

/-- number_pattern.findall over a line for the cash scan. -/
def cashFindall (s : List Char) : Nat → Nat → List (List Char)
  | 0, _ => []
  | fuel + 1, start =>
      if s.length ≤ start then []
      else
        match cashNumEndAt s start with
        | some e => ((s.drop start).take (e - start)) :: cashFindall s fuel e
        | none => cashFindall s fuel (start + 1)

def cashWarnMsg : List Char := chars "Could not extract cash position from PDF"

/-- The per-line body of parse_cash_position: last number on the line,
spaces removed and commas turned into points, then float(). -/
def cashLineAmount (line : List Char) : Option Dec :=
  match (cashFindall line (line.length + 1) 0).getLast? with
  | some tok => pyFloat (replaceC ',' '.' (tok.filter fun c => !(c == ' ')))
  | none => none

/-- parse_cash_position: first cash-keyword line whose last number parses. -/
def parse_cash_position (text : List Char) (st : PState) : Option CashPos × PState :=
  match (splitLines text).findSome? (fun line =>
      if cashWordLine line then
        match cashLineAmount line with
        | some amount =>
            let curr := match (List.range (line.length + 1)).findSome?
                (fun i => currencyAt line i) with
              | some c => c
              | none => chars "EUR"
            some (⟨curr, amount, chars "available"⟩ : CashPos)
        | none => none
      else none) with
  | some cp => (some cp, st)
  | none => (none, { st with warnings := st.warnings ++ [cashWarnMsg] })

structure ParseResult where
  holdings : List Holding
  cash : List CashPos
  warnings : List (List Char)
  source_pdf : List Char
  pdf_pages : Nat
  extraction_method : List Char
deriving DecidableEq, Repr

def scannedErrMsg : List Char :=
  chars ("PDF appears to be scanned (very little text extracted). " ++
    "OCR support is not yet implemented. " ++
    "Please use a digital PDF export from Trade Republic.")

def noHoldingsWarnMsg : List Char :=
  chars "No holdings found in PDF. Check if format matches expected Trade Republic layout."

/-- TradeRepublicParser.parse over the extracted text (the PDF name and
page count come from the I/O boundary and are passed in). -/
def TRparse (pdfName : List Char) (pdfPages : Nat) (text : List Char) :
    Except (List Char) ParseResult :=
  if detect_scanned_pdf text then Except.error scannedErrMsg
  else
    let hSt := parse_holdings_table text pstate0
    let holdings := hSt.1
    let st1 := hSt.2
    let st2 : PState :=
      if holdings.isEmpty then { st1 with warnings := st1.warnings ++ [noHoldingsWarnMsg] }
      else st1
    let cSt := parse_cash_position text st2
    Except.ok
      { holdings := holdings,
        cash := match cSt.1 with | some c => [c] | none => [],
        warnings := cSt.2.warnings,
        source_pdf := pdfName,
        pdf_pages := pdfPages,
        extraction_method := chars "pymupdf" }

/-! ### Helper lemmas -/

theorem foldl_preserves {α β : Type} (P : β → Prop) (f : β → α → β)
    (hf : ∀ b a, P b → P (f b a)) :
    ∀ (l : List α) (b : β), P b → P (l.foldl f b)
  | [], _, hb => hb
  | a :: l, b, hb => foldl_preserves P f hf l (f b a) (hf b a hb)

theorem foldl_fixed {α β : Type} (f : β → α → β) :
    ∀ (l : List α) (b : β), (∀ a ∈ l, ∀ b', f b' a = b') → l.foldl f b = b
  | [], _, _ => rfl
  | a :: l, b, h => by
      rw [List.foldl_cons, h a (List.mem_cons_self _ _) b]
      exact foldl_fixed f l b fun x hx b' => h x (List.mem_cons_of_mem _ hx) b'

theorem Dec.blt_iff (a b : Dec) : Dec.blt a b = true ↔ a.toRat < b.toRat := by
  rw [Dec.blt, Dec.toRat, Dec.toRat, decide_eq_true_eq,
    div_lt_div_iff₀ (by positivity) (by positivity)]
  constructor
  · intro h; exact_mod_cast h
  · intro h; exact_mod_cast h

theorem pyMaxBy_mem (cs : List MoneyCand) (c : MoneyCand) :
    pyMaxBy c cs = c ∨ pyMaxBy c cs ∈ cs := by
  induction cs generalizing c with
  | nil => exact Or.inl rfl
  | cons d cs ih =>
      simp only [pyMaxBy]
      rcases ih (if Dec.blt c.val d.val then d else c) with h | h
      · rw [h]
        split
        · exact Or.inr (List.mem_cons_self _ _)
        · exact Or.inl rfl
      · exact Or.inr (List.mem_cons_of_mem _ h)

theorem pyMaxBy_ge (cs : List MoneyCand) (c : MoneyCand) :
    ∀ c' ∈ c :: cs, c'.val.toRat ≤ (pyMaxBy c cs).val.toRat := by
  induction cs generalizing c with
  | nil =>
      intro c' hc'
      rcases List.mem_singleton.mp hc' with rfl
      exact le_refl _
  | cons d cs ih =>
      intro c' hc'
      have hb : c.val.toRat ≤ (if Dec.blt c.val d.val then d else c).val.toRat ∧
          d.val.toRat ≤ (if Dec.blt c.val d.val then d else c).val.toRat := by
        by_cases hbl : Dec.blt c.val d.val = true
        · simp only [hbl, if_true]
          exact ⟨le_of_lt ((Dec.blt_iff _ _).mp hbl), le_refl _⟩
        · have hnl : ¬ c.val.toRat < d.val.toRat := fun hlt => hbl ((Dec.blt_iff _ _).mpr hlt)
          simp only [hbl, if_false]
          exact ⟨le_refl _, le_of_not_lt hnl⟩
      have hhead := ih (if Dec.blt c.val d.val then d else c)
      simp only [pyMaxBy]
      rcases List.mem_cons.mp hc' with rfl | hc2
      · exact le_trans hb.1 (hhead _ (List.mem_cons_self _ _))
      rcases List.mem_cons.mp hc2 with rfl | hc3
      · exact le_trans hb.2 (hhead _ (List.mem_cons_self _ _))
      · exact hhead _ (List.mem_cons_of_mem _ hc3)

/-- Every money candidate of a block records the index of a line that is
not a quantity-marker line (those are skipped before token collection). -/
theorem moneyCandidates_not_qty (bl : List (List Char)) :
    ∀ c ∈ moneyCandidates bl, qtyLineMatch (bl.getD c.idx []) = false := by
  intro c hc
  unfold moneyCandidates at hc
  rw [List.mem_flatMap] at hc
  obtain ⟨i, _, hci⟩ := hc
  simp only at hci
  by_cases hq : qtyLineMatch (bl.getD i []) = true
  · rw [if_pos hq] at hci
    exact absurd hci (List.not_mem_nil c)
  · rw [if_neg hq] at hci
    rw [List.mem_filterMap] at hci
    obtain ⟨tok, _, htok⟩ := hci
    have hidx : c.idx = i := by
      split at htok
      · cases hp : parse_number tok with
        | none => rw [hp] at htok; exact absurd htok (by simp)
        | some v =>
            rw [hp] at htok
            have htok2 : (if v.isPos = true then
                some (⟨i, v, tok⟩ : MoneyCand) else none) = some c := htok
            by_cases hP : v.isPos = true
            · rw [if_pos hP] at htok2
              rw [← Option.some_inj.mp htok2]
            · rw [if_neg hP] at htok2
              exact absurd htok2 (by simp)
      · exact absurd htok (by simp)
    rw [hidx]
    exact eq_false_of_ne_true hq

/-- The line index carried by a market-value extraction method tag. -/
def mvMethodLine : MvMethod → Option Nat
  | .largestAfterDate l => some l
  | .singleAfterDate l => some l
  | .largestInBlock l => some l
  | .labeledPattern => none
  | .wertLine l => some l

/-! ### Concrete fixtures -/

/-- A labeled-layout document (no KURSWERT IN EUR column header anywhere). -/
def docLabeled : List Char :=
  chars "POSITIONEN\nApple Inc.\nISIN: US0378331005\nStück 10,00\nKurswert 1.755,00 EUR\nGESAMT"

/-- A table-layout row segment: anchor line, name, ISIN line, date line,
then the per-unit price and the row's market value. -/
def blkFairfax : List (List Char) :=
  [chars "14,007714 Stk.", chars "Fairfax Financial Holdings Ltd.",
   chars "ISIN: CA3039011026", chars "26.01.2026", chars "1.398,00", chars "19.582,78"]

/-- A row segment whose quantity value reappears as an ordinary money
candidate after the date line. -/
def blkCoincide : List (List Char) :=
  [chars "2,00 Stk.", chars "01.02.2024", chars "2,00", chars "1,50"]

/-! ### Claims -/

/-- C1 counterexample: in the Fairfax segment the anchor is line 0 and the
date line is line 3; the two money candidates after the date sit on lines 4
(value 1398.00, line distance 4 to the anchor) and 5 (value 19582.78, line
distance 5).  The extractor selects the value of line 5 — the largest and
the farthest from the anchor — so the candidate closest to the anchor does
not win, contrary to the claim. -/
theorem C1_counterexample :
    blkFairfax.findIdx? hasDateToken = some 3 ∧
    ((moneyCandidates blkFairfax).filter
        (fun c => decide (3 < c.idx) && decide (c.idx ≤ 3 + 4))) =
      [⟨4, ⟨139800, 2⟩, chars "1.398,00"⟩, ⟨5, ⟨1958278, 2⟩, chars "19.582,78"⟩] ∧
    extract_market_value_column_based blkFairfax 0 pstate0 =
      (some (⟨1958278, 2⟩, MvMethod.largestAfterDate 5), pstate0) ∧
    Dec.toRat ⟨1958278, 2⟩ ≠ Dec.toRat ⟨139800, 2⟩ := by
  refine ⟨by decide, by decide, by decide, ?_⟩
  rw [Dec.toRat, Dec.toRat]
  norm_num

/-- C1 (amended): when a row segment has a date-shaped line and at least
two money-shaped candidates on the four lines after it, the extractor
selects the candidate of largest value (the first such on ties, which is
what Python max returns) — not the candidate closest to the anchor. -/
theorem C1_theorem (bl : List (List Char)) (bs : Nat) (st : PState) (d : Nat)
    (c1 c2 : MoneyCand) (rest : List MoneyCand)
    (hd : bl.findIdx? hasDateToken = some d)
    (hafter : (moneyCandidates bl).filter
        (fun c => decide (d < c.idx) && decide (c.idx ≤ d + 4)) = c1 :: c2 :: rest) :
    ∃ best, (best = c1 ∨ best ∈ c2 :: rest) ∧
      extract_market_value_column_based bl bs st =
        (some (best.val, MvMethod.largestAfterDate (bs + best.idx)), st) ∧
      ∀ c' ∈ c1 :: c2 :: rest, c'.val.toRat ≤ best.val.toRat := by
  obtain ⟨c0, cs0, hm⟩ : ∃ c0 cs0, moneyCandidates bl = c0 :: cs0 := by
    cases hmc : moneyCandidates bl with
    | nil =>
        rw [hmc] at hafter
        exact absurd hafter (by simp)
    | cons a l => exact ⟨a, l, rfl⟩
  refine ⟨pyMaxBy c1 (c2 :: rest), pyMaxBy_mem _ _, ?_, pyMaxBy_ge _ _⟩
  rw [hm] at hafter
  unfold extract_market_value_column_based
  rw [hm, hd]
  simp only [hafter]

/-- C1 witness: the amended rule applied to the Fairfax segment. -/
theorem C1_witness :
    ∃ best,
      (best = (⟨4, ⟨139800, 2⟩, chars "1.398,00"⟩ : MoneyCand) ∨
        best ∈ [(⟨5, ⟨1958278, 2⟩, chars "19.582,78"⟩ : MoneyCand)]) ∧
      extract_market_value_column_based blkFairfax 0 pstate0 =
        (some (best.val, MvMethod.largestAfterDate (0 + best.idx)), pstate0) ∧
      ∀ c' ∈ [(⟨4, ⟨139800, 2⟩, chars "1.398,00"⟩ : MoneyCand),
              (⟨5, ⟨1958278, 2⟩, chars "19.582,78"⟩ : MoneyCand)],
        c'.val.toRat ≤ best.val.toRat :=
  C1_theorem blkFairfax 0 pstate0 3 _ _ [] (by decide) (by decide)

/-- C2 counterexample: the labeled-layout document never contains the
KURSWERT IN EUR header, yet its single emitted holding carries the
non-null market value 1755.00 and the parse records no warnings at all —
in particular no document-level warning about a missing column. -/
theorem C2_counterexample :
    hasKurswertHeader docLabeled = false ∧
    ((parse_holdings_table docLabeled pstate0).1.map fun h => h.market_data) =
      [some ⟨⟨175500, 2⟩, chars "EUR"⟩] ∧
    (parse_holdings_table docLabeled pstate0).2.warnings = [] := by
  refine ⟨by decide, by decide, by decide⟩

/-- C2 (amended): when a block does not carry the KURSWERT IN EUR header,
market-value extraction falls back to the labeled patterns (which may well
return a non-null value); the header test gates only the column-based
strategy, and no document-level missing-column warning exists. -/
theorem C2_theorem (bl : List (List Char)) (bs : Nat) (st : PState)
    (h : hasKurswertHeader (joinLines bl) = false) :
    extract_market_value_with_meta bl bs st = (extract_market_value_labeled bl bs, st) := by
  unfold extract_market_value_with_meta
  rw [h]
  simp

/-- C2 witness: the labeled fallback applied to the Apple block. -/
theorem C2_witness :
    extract_market_value_with_meta
        [chars "Apple Inc.", chars "ISIN: US0378331005", chars "Stück 10,00",
         chars "Kurswert 1.755,00 EUR"] 0 pstate0 =
      (extract_market_value_labeled
        [chars "Apple Inc.", chars "ISIN: US0378331005", chars "Stück 10,00",
         chars "Kurswert 1.755,00 EUR"] 0, pstate0) :=
  C2_theorem _ 0 pstate0 (by decide)

/-- C6 counterexample: in blkCoincide the quantity extracted from the
anchor line is 2.00; after the date line there are two money candidates
(2.00 and 1.50), and the selected market value is 2.00 — numerically equal
to the quantity token's value, refuting the claim's consequence. -/
theorem C6_counterexample :
    (extract_quantity_with_meta blkCoincide 0).1 = some ⟨200, 2⟩ ∧
    blkCoincide.findIdx? hasDateToken = some 1 ∧
    ((moneyCandidates blkCoincide).filter
        (fun c => decide (1 < c.idx) && decide (c.idx ≤ 1 + 4))).length = 2 ∧
    extract_market_value_column_based blkCoincide 0 pstate0 =
      (some (⟨200, 2⟩, MvMethod.largestAfterDate 2), pstate0) := by
  refine ⟨by decide, by decide, by decide, by decide⟩

/-- C6 (amended): the value selected by the column-based extractor is
always one of the block's money candidates, whose lines never match the
quantity pattern — the selected value is never read from a quantity line,
though it may numerically coincide with the quantity when another line
carries an equal amount. -/
theorem C6_theorem (bl : List (List Char)) (bs : Nat) (st st' : PState)
    (v : Dec) (m : MvMethod)
    (h : extract_market_value_column_based bl bs st = (some (v, m), st')) :
    ∃ c ∈ moneyCandidates bl, v = c.val ∧ mvMethodLine m = some (bs + c.idx) ∧
      qtyLineMatch (bl.getD c.idx []) = false := by
  have hnq := moneyCandidates_not_qty bl
  cases hm : moneyCandidates bl with
  | nil =>
      unfold extract_market_value_column_based at h
      rw [hm] at h
      exact absurd h (by simp)
  | cons c0 cs0 =>
      have hnq2 : ∀ c ∈ c0 :: cs0, qtyLineMatch (bl.getD c.idx []) = false :=
        fun c hc => hnq c (hm.symm ▸ hc)
      have hmax0 : pyMaxBy c0 cs0 ∈ c0 :: cs0 := by
        rcases pyMaxBy_mem cs0 c0 with he | he
        · rw [he]; exact List.mem_cons_self _ _
        · exact List.mem_cons_of_mem _ he
      unfold extract_market_value_column_based at h
      rw [hm] at h
      cases hd : bl.findIdx? hasDateToken with
      | some d =>
          rw [hd] at h
          cases hA : (c0 :: cs0).filter
              (fun c => decide (d < c.idx) && decide (c.idx ≤ d + 4)) with
          | nil =>
              simp only [hA] at h
              obtain ⟨⟨hv, hmm⟩, -⟩ := by
                simpa only [Prod.mk.injEq, Option.some.injEq] using h
              exact ⟨pyMaxBy c0 cs0, hmax0, hv.symm, by rw [← hmm]; rfl,
                hnq2 _ hmax0⟩
          | cons a l =>
              cases l with
              | nil =>
                  simp only [hA] at h
                  obtain ⟨⟨hv, hmm⟩, -⟩ := by
                    simpa only [Prod.mk.injEq, Option.some.injEq] using h
                  have ha : a ∈ c0 :: cs0 :=
                    List.mem_of_mem_filter (hA ▸ List.mem_cons_self _ _)
                  exact ⟨a, ha, hv.symm, by rw [← hmm]; rfl, hnq2 _ ha⟩
              | cons b l2 =>
                  simp only [hA] at h
                  obtain ⟨⟨hv, hmm⟩, -⟩ := by
                    simpa only [Prod.mk.injEq, Option.some.injEq] using h
                  have hmemf : pyMaxBy a (b :: l2) ∈ (c0 :: cs0).filter
                      (fun c => decide (d < c.idx) && decide (c.idx ≤ d + 4)) := by
                    rw [hA]
                    rcases pyMaxBy_mem (b :: l2) a with he | he
                    · rw [he]; exact List.mem_cons_self _ _
                    · exact List.mem_cons_of_mem _ he
                  have hbest : pyMaxBy a (b :: l2) ∈ c0 :: cs0 :=
                    List.mem_of_mem_filter hmemf
                  exact ⟨pyMaxBy a (b :: l2), hbest, hv.symm, by rw [← hmm]; rfl,
                    hnq2 _ hbest⟩
      | none =>
          rw [hd] at h
          obtain ⟨⟨hv, hmm⟩, -⟩ := by
            simpa only [Prod.mk.injEq, Option.some.injEq] using h
          exact ⟨pyMaxBy c0 cs0, hmax0, hv.symm, by rw [← hmm]; rfl, hnq2 _ hmax0⟩

theorem dropWhile_eq_self_of {p : Char → Bool} {s : List Char}
    (h : ∀ c ∈ s, p c = false) : s.dropWhile p = s := by
  cases s with
  | nil => rfl
  | cons a l => simp [List.dropWhile_cons, h a (List.mem_cons_self _ _)]

theorem stripWs_eq_self {s : List Char} (h : ∀ c ∈ s, isWs c = false) :
    stripWs s = s := by
  unfold stripWs
  rw [dropWhile_eq_self_of h,
    dropWhile_eq_self_of (fun c hc => h c (List.mem_reverse.mp hc)), List.reverse_reverse]

theorem filter_nospace_eq_self {s : List Char} (h : ∀ c ∈ s, isWs c = false) :
    (s.filter fun c => !(c == ' ')) = s := by
  apply List.filter_eq_self.mpr
  intro a ha
  have ha2 := h a ha
  simp only [isWs, Bool.or_eq_false_iff] at ha2
  simp [ha2.1.1.1.1.1]

/-- The separator rule exactly as the specification words it: when a token
holds both separators, the one occurring rightmost is the decimal separator
(each of its occurrences becomes a point) and the other separator is
stripped entirely as a thousands separator. -/
def specDecimalNorm (s : List Char) : List Char :=
  if (rfindPos '.' s).getD 0 < (rfindPos ',' s).getD 0 then
    replaceC ',' '.' (removeC '.' s)
  else
    removeC ',' s

/-- C3: on a whitespace-free numeric token holding both separators,
parse_number is float() after the rightmost-separator normalisation; a
token with a single comma and no point takes the comma as the decimal
separator; and the four concrete values of the specification hold. -/
theorem C3_theorem :
    (∀ s : List Char, (∀ c ∈ s, isWs c = false) → 0 < countC ',' s → 0 < countC '.' s →
      parse_number s = pyFloat (specDecimalNorm s)) ∧
    (∀ s : List Char, (∀ c ∈ s, isWs c = false) → countC ',' s = 1 → countC '.' s = 0 →
      parse_number s = pyFloat (replaceC ',' '.' s)) ∧
    (parse_number (chars "1.234,56")).map Dec.toRat = some (30864 / 25 : ℚ) ∧
    (parse_number (chars "1,234.56")).map Dec.toRat = some (30864 / 25 : ℚ) ∧
    (parse_number (chars "12,345678")).map Dec.toRat = some (6172839 / 500000 : ℚ) ∧
    (parse_number (chars "474,155346")).map Dec.toRat = some (237077673 / 500000 : ℚ) := by
  have hmain : ∀ s : List Char, (∀ c ∈ s, isWs c = false) → s ≠ [] →
      parse_number s = pyFloat
        (if 0 < countC ',' s && 0 < countC '.' s then
          if (rfindPos ',' s).getD 0 > (rfindPos '.' s).getD 0 then
            replaceC ',' '.' (removeC '.' s)
          else removeC ',' s
        else if 1 < countC ',' s then removeC ',' s
        else if 1 < countC '.' s then removeFirstN '.' (countC '.' s - 1) s
        else if countC ',' s == 1 then replaceC ',' '.' s
        else s) := by
    intro s hws hne
    unfold parse_number
    rw [if_neg (by simpa [List.isEmpty_iff] using hne)]
    rw [stripWs_eq_self hws, filter_nospace_eq_self hws]
  refine ⟨?_, ?_, ?_, ?_, ?_, ?_⟩
  · intro s hws hc hd
    have hne : s ≠ [] := by
      intro h0
      rw [h0] at hc
      exact absurd hc (by simp [countC])
    rw [hmain s hws hne]
    have hcond : (decide (0 < countC ',' s) && decide (0 < countC '.' s)) = true := by
      simp [hc, hd]
    rw [if_pos hcond]
    rfl
  · intro s hws hc hd
    have hne : s ≠ [] := by
      intro h0
      rw [h0] at hc
      exact absurd hc (by simp [countC])
    rw [hmain s hws hne, hc, hd]
    norm_num
  · rw [show parse_number (chars "1.234,56") = some ⟨123456, 2⟩ from by decide]
    rw [Option.map_some', Dec.toRat]
    norm_num
  · rw [show parse_number (chars "1,234.56") = some ⟨123456, 2⟩ from by decide]
    rw [Option.map_some', Dec.toRat]
    norm_num
  · rw [show parse_number (chars "12,345678") = some ⟨12345678, 6⟩ from by decide]
    rw [Option.map_some', Dec.toRat]
    norm_num
  · rw [show parse_number (chars "474,155346") = some ⟨474155346, 6⟩ from by decide]
    rw [Option.map_some', Dec.toRat]
    norm_num

/-- C3 witness: the two general rules applied to concrete tokens. -/
theorem C3_witness :
    parse_number (chars "9.876,54") = pyFloat (specDecimalNorm (chars "9.876,54")) ∧
    parse_number (chars "12,345678") = pyFloat (replaceC ',' '.' (chars "12,345678")) :=
  ⟨C3_theorem.1 _ (by decide) (by decide) (by decide),
   C3_theorem.2.1 _ (by decide) (by decide) (by decide)⟩

/-- C8: a document whose stripped text is shorter than 100 characters is
treated as a scanned PDF: parse raises the fatal IngestError and returns
no partial result — no holdings, cash, warnings, or metadata. -/
theorem C8_theorem (pdfName : List Char) (pdfPages : Nat) (text : List Char)
    (h : (stripWs text).length < 100) :
    TRparse pdfName pdfPages text = Except.error scannedErrMsg := by
  have hd : detect_scanned_pdf text = true := by
    unfold detect_scanned_pdf
    exact decide_eq_true h
  unfold TRparse
  rw [hd]
  simp

/-- C8 witness: a ten-character extraction is rejected. -/
theorem C8_witness :
    TRparse (chars "portfolio.pdf") 1 (chars "short scan") = Except.error scannedErrMsg :=
  C8_theorem _ _ _ (by decide)

/-! ### Invariants of the candidate scan -/

def currencyList : List (List Char) :=
  [chars "EUR", chars "USD", chars "GBP", chars "CHF"]

theorem findSome?_mem_of_eq_some {α β : Type} {f : α → Option β} :
    ∀ {l : List α} {b : β}, l.findSome? f = some b → ∃ a ∈ l, f a = some b := by
  intro l
  induction l with
  | nil => intro b h; exact absurd h (by simp)
  | cons a l ih =>
      intro b h
      rw [List.findSome?_cons] at h
      cases hf : f a with
      | some x =>
          rw [hf] at h
          have h2 : (some x : Option β) = some b := h
          exact ⟨a, List.mem_cons_self _ _, by rw [hf]; exact h2⟩
      | none =>
          rw [hf] at h
          obtain ⟨a', ha', hfa'⟩ := ih h
          exact ⟨a', List.mem_cons_of_mem _ ha', hfa'⟩

theorem findSome?_eq_none_of {α β : Type} {f : α → Option β} :
    ∀ {l : List α}, (∀ a ∈ l, f a = none) → l.findSome? f = none := by
  intro l
  induction l with
  | nil => intro _; rfl
  | cons a l ih =>
      intro h
      rw [List.findSome?_cons, h a (List.mem_cons_self _ _)]
      exact ih fun x hx => h x (List.mem_cons_of_mem _ hx)

theorem findSome?_range'_first {β : Type} (f : Nat → Option β) :
    ∀ (len start : Nat) {i : Nat} {b : β}, start ≤ i → i < start + len →
      f i = some b → (∀ j, start ≤ j → j < i → f j = none) →
      (List.range' start len).findSome? f = some b := by
  intro len
  induction len with
  | zero => intro start i b h1 h2 _ _; omega
  | succ n ih =>
      intro start i b h1 h2 hf hmin
      rw [List.range'_succ, List.findSome?_cons]
      by_cases he : start = i
      · subst he
        rw [hf]
      · have hnone : f start = none := hmin start (le_refl _) (lt_of_le_of_ne h1 he)
        rw [hnone]
        exact ih (start + 1) (by omega) (by omega) hf fun j hj1 hj2 => hmin j (by omega) hj2

theorem currencyAt_mem (s : List Char) (i : Nat) (c : List Char)
    (h : currencyAt s i = some c) : c ∈ currencyList := by
  unfold currencyAt at h
  split_ifs at h <;> simp_all [currencyList]

/-- A currency match needs at least one character of the string. -/
theorem currencyAt_lt (s : List Char) (i : Nat) (c : List Char)
    (h : currencyAt s i = some c) : i < s.length + 1 := by
  by_contra hge
  push_neg at hge
  have hd : s.drop i = [] := List.drop_eq_nil_of_le (by omega)
  unfold currencyAt at h
  rw [hd] at h
  have e1 : startsWithCS (chars "EUR") ([] : List Char) = false := by decide
  have e2 : startsWithCS (chars "USD") ([] : List Char) = false := by decide
  have e3 : startsWithCS (chars "GBP") ([] : List Char) = false := by decide
  have e4 : startsWithCS (chars "CHF") ([] : List Char) = false := by decide
  rw [e1, e2, e3, e4] at h
  simp at h

theorem extract_currency_mem (s : List Char) : extract_currency s ∈ currencyList := by
  unfold extract_currency
  cases hf : (List.range (s.length + 1)).findSome? (fun i => currencyAt s i) with
  | none => simp [currencyList]
  | some c =>
      obtain ⟨i, -, hci⟩ := findSome?_mem_of_eq_some hf
      simpa using currencyAt_mem s i c hci

theorem mkHolding_md_currency (i n : List Char) (q : Option Dec) (c : List Char)
    (m : Option Dec) :
    ∀ md, (mkHolding i n q c m).market_data = some md → md.currency = c := by
  intro md h
  unfold mkHolding at h
  cases m with
  | none => exact absurd h (by simp)
  | some v =>
      simp only [Option.some.injEq] at h
      rw [← h]

/-- parse_holding_block always produces a holding whose identifier fields
are the validated ISIN and whose currency (shared with the market data) is
the block's extracted currency. -/
theorem parse_holding_block_shape (isin : List Char) (idx : Nat)
    (allLines : List (List Char)) (labels : List Nat) (st : PState) :
    ∃ name qty bt mv st',
      parse_holding_block isin idx allLines labels st =
        (some (mkHolding isin name qty (extract_currency bt) mv), st') := by
  unfold parse_holding_block
  exact ⟨_, _, _, _, _, rfl⟩

def holdingOk (h : Holding) : Prop :=
  is_valid_isin h.isin = true ∧ h.security_id = h.isin ∧ h.currency ∈ currencyList ∧
    ∀ md, h.market_data = some md → md.currency = h.currency

def accInv (acc : TableAcc) : Prop :=
  (∀ h ∈ acc.2.1, holdingOk h ∧ h.isin ∈ acc.1) ∧ (acc.2.1.map (fun h => h.isin)).Nodup

theorem nodup_append_singleton {α : Type} {l : List α} {a : α}
    (hl : l.Nodup) (ha : a ∉ l) : (l ++ [a]).Nodup := by
  rw [List.nodup_append]
  refine ⟨hl, List.nodup_singleton a, ?_⟩
  intro x hx hx2
  rw [List.mem_singleton] at hx2
  subst hx2
  exact ha hx

theorem holdingOk_mk (isin name : List Char) (qty : Option Dec) (bt : List Char)
    (mv : Option Dec) (hv : is_valid_isin isin = true) :
    holdingOk (mkHolding isin name qty (extract_currency bt) mv) :=
  ⟨hv, rfl, extract_currency_mem bt, mkHolding_md_currency _ _ _ _ _⟩

theorem processCandidate_inv (allLines : List (List Char)) (labels : List Nat) (i : Nat)
    (acc : TableAcc) (cand : List Char) (hinv : accInv acc) :
    accInv (processCandidate allLines labels i acc cand) := by
  unfold processCandidate
  by_cases hc : acc.1.contains cand = true
  · rw [if_pos hc]
    exact hinv
  · rw [if_neg hc]
    by_cases hv : is_valid_isin cand = true
    · rw [if_neg (by rw [hv]; simp)]
      obtain ⟨name, qty, bt, mv, st', heq⟩ :=
        parse_holding_block_shape cand i allLines labels acc.2.2
      rw [heq]
      have hnotmem : cand ∉ acc.1 := fun hmem => hc (List.elem_eq_true_of_mem hmem)
      constructor
      · intro h hm
        rcases List.mem_append.mp hm with hm1 | hm2
        · obtain ⟨hok, hin⟩ := hinv.1 h hm1
          exact ⟨hok, List.mem_cons_of_mem _ hin⟩
        · rw [List.mem_singleton] at hm2
          subst hm2
          exact ⟨holdingOk_mk cand name qty bt mv hv, List.mem_cons_self _ _⟩
      · rw [List.map_append]
        refine nodup_append_singleton hinv.2 ?_
        intro hmem
        rw [List.mem_map] at hmem
        obtain ⟨h, hm, hisin⟩ := hmem
        have hisin2 : h.isin = cand := by simpa using hisin
        exact hnotmem (hisin2 ▸ (hinv.1 h hm).2)
    · rw [if_pos (by rw [eq_false_of_ne_true hv]; rfl)]
      exact hinv

theorem processLine_inv (allLines : List (List Char)) (labels : List Nat)
    (acc : TableAcc) (i : Nat) (hinv : accInv acc) :
    accInv (processLine allLines labels acc i) := by
  unfold processLine
  split
  · exact hinv
  · exact foldl_preserves accInv _ (fun b a hb => processCandidate_inv allLines labels i b a hb)
      _ acc hinv

/-- The global invariant of parse_holdings_table: every emitted holding
passed the checksum, keeps its ISIN in both identifier fields, carries a
currency from the fixed code set shared with its market data, and the
emitted ISINs are pairwise distinct. -/
theorem table_inv (text : List Char) (st : PState) :
    (∀ h ∈ (parse_holdings_table text st).1, holdingOk h) ∧
    ((parse_holdings_table text st).1.map (fun h => h.isin)).Nodup := by
  have h0 : accInv (([], [], st) : TableAcc) := by
    constructor
    · intro h hm
      exact absurd hm (List.not_mem_nil h)
    · simp
  have hfin := foldl_preserves accInv
    (processLine (splitLines text) (find_isin_lines (splitLines text)))
    (fun b a hb => processLine_inv _ _ b a hb)
    (searchLinesOf (find_holdings_section (splitLines text)).1
      (find_holdings_section (splitLines text)).2 (find_isin_lines (splitLines text)))
    (([], [], st) : TableAcc) h0
  unfold parse_holdings_table
  exact ⟨fun h hm => (hfin.1 h hm).1, hfin.2⟩

/-- C6 witness: the amended rule applied to the Fairfax segment. -/
theorem C6_witness :
    ∃ c ∈ moneyCandidates blkFairfax, (⟨1958278, 2⟩ : Dec) = c.val ∧
      mvMethodLine (MvMethod.largestAfterDate 5) = some (0 + c.idx) ∧
      qtyLineMatch (blkFairfax.getD c.idx []) = false :=
  C6_theorem blkFairfax 0 pstate0 pstate0 ⟨1958278, 2⟩
    (MvMethod.largestAfterDate 5) (by decide)

/-- C5: every holding emitted by any parse carries a checksum-valid ISIN;
the ISIN-shaped uppercase run from BRUNNENSTRASSE 123 fails the validator
(its twelfth character is a letter, not a digit), so it can never appear
as any holding's isin. -/
theorem C5_theorem :
    (∀ text st, ((parse_holdings_table text st).1.all
        fun h => is_valid_isin h.isin) = true) ∧
    is_valid_isin (chars "BRUNNENSTRAS") = false ∧
    (∀ text st, ((parse_holdings_table text st).1.all
        fun h => !(h.isin == chars "BRUNNENSTRAS")) = true) := by
  refine ⟨?_, by decide, ?_⟩
  · intro text st
    rw [List.all_eq_true]
    intro h hm
    exact ((table_inv text st).1 h hm).1
  · intro text st
    rw [List.all_eq_true]
    intro h hm
    have hv := ((table_inv text st).1 h hm).1
    by_cases he : h.isin = chars "BRUNNENSTRAS"
    · rw [he] at hv
      exact absurd hv (by decide)
    · simp [he]

/-- C9: within one parse all emitted holdings have pairwise-distinct
ISINs — a repeated occurrence of an already-processed ISIN string never
produces a second holding. -/
theorem C9_theorem (text : List Char) (st : PState) :
    ((parse_holdings_table text st).1.map (fun h => h.isin)).Nodup :=
  (table_inv text st).2

/-- C10: every emitted holding's currency is one of EUR/USD/GBP/CHF and is
repeated inside its market data when present; the currency extracted from
a block is the first word-bounded code occurring in its text, defaulting
to EUR when no code occurs. -/
theorem C10_theorem :
    (∀ text st, ∀ h ∈ (parse_holdings_table text st).1,
      h.currency ∈ currencyList ∧
        ∀ md, h.market_data = some md → md.currency = h.currency) ∧
    (∀ s : List Char, ∀ i : Nat, ∀ c : List Char, currencyAt s i = some c →
      (∀ j, j < i → currencyAt s j = none) → extract_currency s = c) ∧
    (∀ s : List Char, (∀ i, currencyAt s i = none) → extract_currency s = chars "EUR") ∧
    (∀ s : List Char, extract_currency s ∈ currencyList) := by
  refine ⟨?_, ?_, ?_, extract_currency_mem⟩
  · intro text st h hm
    obtain ⟨-, -, hcur, hmd⟩ := (table_inv text st).1 h hm
    exact ⟨hcur, hmd⟩
  · intro s i c hc hmin
    have hlt : i < s.length + 1 := by
      by_contra hge
      push_neg at hge
      have hd : s.drop i = [] := List.drop_eq_nil_of_le (by omega)
      unfold currencyAt at hc
      rw [hd] at hc
      have e1 : startsWithCS (chars "EUR") ([] : List Char) = false := by decide
      have e2 : startsWithCS (chars "USD") ([] : List Char) = false := by decide
      have e3 : startsWithCS (chars "GBP") ([] : List Char) = false := by decide
      have e4 : startsWithCS (chars "CHF") ([] : List Char) = false := by decide
      rw [e1, e2, e3, e4] at hc
      simp at hc
    unfold extract_currency
    rw [List.range_eq_range',
      findSome?_range'_first (fun j => currencyAt s j) (s.length + 1) 0
        (Nat.zero_le i) (by omega) hc (fun j _ hj => hmin j hj)]
  · intro s hall
    unfold extract_currency
    rw [findSome?_eq_none_of fun a _ => hall a]

/-- C10 witness: the first-code rule and the EUR default at concrete
blocks, and the holding-level facts at the labeled document's holding. -/
theorem C10_witness :
    extract_currency (chars "Wert 500,25 USD und 1,00 EUR") = chars "USD" ∧
    extract_currency (chars "keine Angabe") = chars "EUR" ∧
    ((chars "EUR" ∈ currencyList) ∧
      ∀ md, (some (⟨⟨175500, 2⟩, chars "EUR"⟩ : MarketData)) = some md →
        md.currency = chars "EUR") := by
  refine ⟨C10_theorem.2.1 _ 12 _ (by decide) (by decide),
    C10_theorem.2.2.1 _ (fun i => ?_), ?_⟩
  · by_cases hle : i < 13
    · interval_cases i <;> decide
    · cases hlt : currencyAt (chars "keine Angabe") i with
      | none => rfl
      | some c =>
          have hl := currencyAt_lt (chars "keine Angabe") i c hlt
          have hlen : (chars "keine Angabe").length = 12 := by decide
          omega
  · have hm : (⟨chars "US0378331005", chars "US0378331005", chars "Apple Inc.",
        some ⟨1000, 2⟩, chars "EUR", none,
        some ⟨⟨175500, 2⟩, chars "EUR"⟩⟩ : Holding) ∈
        (parse_holdings_table docLabeled pstate0).1 := by decide
    have := C10_theorem.1 docLabeled pstate0 _ hm
    exact ⟨this.1, fun md hmd => this.2 md hmd⟩

/-- C7: a segment with no checksum-valid ISIN candidate produces no
holding at all, while a missing name, quantity, or market value is
non-fatal: the holding is still emitted with that field null (the name
replaced by the Unknown placeholder embedding the ISIN) and a warning
recorded for the field. -/
theorem C7_theorem :
    (∀ text st,
      (∀ i, i < (splitLines text).length →
        ∀ cand ∈ isinCandidatesInLine ((splitLines text).getD i []),
          is_valid_isin cand = false) →
      (parse_holdings_table text st).1 = []) ∧
    (∀ isin idx allLines labels st,
      ((parse_holding_block isin idx allLines labels st).1).isSome = true ∧
      (nameFailed (extract_name (blockLinesOf idx allLines labels).2
          (idx - (blockLinesOf idx allLines labels).1) isin) = true →
        (∃ h, (parse_holding_block isin idx allLines labels st).1 = some h ∧
          h.name = unknownNameOf isin) ∧
        nameWarnOf isin ∈ (parse_holding_block isin idx allLines labels st).2.warnings) ∧
      ((extract_quantity_with_meta (blockLinesOf idx allLines labels).2
          (blockLinesOf idx allLines labels).1).1 = none →
        (∃ h, (parse_holding_block isin idx allLines labels st).1 = some h ∧
          h.quantity = none) ∧
        qtyWarnOf isin ∈ (parse_holding_block isin idx allLines labels st).2.warnings) ∧
      ((extract_market_value_with_meta (blockLinesOf idx allLines labels).2
          (blockLinesOf idx allLines labels).1 st).1 = none →
        (∃ h, (parse_holding_block isin idx allLines labels st).1 = some h ∧
          h.market_data = none) ∧
        mvWarnOf isin ∈ (parse_holding_block isin idx allLines labels st).2.warnings)) := by
  constructor
  · intro text st hall
    have hcand : ∀ i, ∀ cand ∈ isinCandidatesInLine ((splitLines text).getD i []),
        ∀ acc : TableAcc, i < (splitLines text).length →
        processCandidate (splitLines text) (find_isin_lines (splitLines text)) i acc cand
          = acc := by
      intro i cand hm acc hi
      unfold processCandidate
      by_cases hc : acc.1.contains cand = true
      · rw [if_pos hc]
      · rw [if_neg hc, if_pos (by rw [hall i hi cand hm]; rfl)]
    have hline : ∀ i, ∀ acc : TableAcc,
        processLine (splitLines text) (find_isin_lines (splitLines text)) acc i = acc := by
      intro i acc
      unfold processLine
      split
      · rfl
      · rename_i hlen
        exact foldl_fixed _ _ acc fun cand hcm acc' =>
          hcand i cand hcm acc' (by omega)
    show (List.foldl (processLine (splitLines text) (find_isin_lines (splitLines text)))
        ([], [], st) (searchLinesOf (find_holdings_section (splitLines text)).1
          (find_holdings_section (splitLines text)).2
          (find_isin_lines (splitLines text)))).2.1 = []
    rw [foldl_fixed _ _ _ fun i _ acc => hline i acc]
  · intro isin idx allLines labels st
    refine ⟨rfl, ?_, ?_, ?_⟩
    · intro hn
      unfold parse_holding_block
      simp only [hn, if_true]
      constructor
      · exact ⟨_, rfl, rfl⟩
      · split_ifs <;> simp
    · intro hq
      unfold parse_holding_block
      simp only [hq, Option.isNone_none, if_true]
      constructor
      · exact ⟨_, rfl, rfl⟩
      · split_ifs <;> simp
    · intro hmv
      unfold parse_holding_block
      simp only [hmv, Option.map_none', Option.isNone_none, if_true]
      constructor
      · exact ⟨_, rfl, rfl⟩
      · split_ifs <;> simp

/-- C7 witness: a document whose only ISIN-shaped candidates fail the
checksum yields no holdings; the non-fatal field behaviour at a block with
no extractable name, quantity or market value. -/
theorem C7_witness :
    (parse_holdings_table (chars "POSITIONEN\nBRUNNENSTRASSE 123\nXX0000000000\nGESAMT")
      pstate0).1 = [] ∧
    ((∃ h, (parse_holding_block (chars "US0378331005") 0 [chars "US0378331005"] [] pstate0).1
        = some h ∧ h.name = unknownNameOf (chars "US0378331005")) ∧
      nameWarnOf (chars "US0378331005") ∈
        (parse_holding_block (chars "US0378331005") 0 [chars "US0378331005"] [] pstate0).2.warnings) :=
  ⟨(C7_theorem.1 _ pstate0 (by decide)),
   ((C7_theorem.2 (chars "US0378331005") 0 [chars "US0378331005"] [] pstate0).2.1 (by decide))⟩

/-! ### The ISIN validator against the specification's wording (C4) -/

/-- The two-digit alphabetic value of the specification: A maps to 10 and
Z to 35. -/
def letterVal (c : Char) : Nat := c.toNat - 55

/-- The expansion the specification describes: digits unchanged, each
letter becoming the two digits of its alphabetic value. -/
def isinExpand (s : List Char) : List Nat :=
  s.flatMap fun c =>
    if c.isDigit then [c.toNat - 48] else [letterVal c / 10, letterVal c % 10]

/-- The right-to-left Luhn pass of the specification over digit values:
the digit at odd 0-indexed position (counted from the right, so the list
here is the reversed digit string) is doubled, and a double exceeding 9
contributes the sum of its two digits, which is the double minus 9. -/
def luhnSpecSum : Nat → List Nat → Nat
  | _, [] => 0
  | i, d :: ds =>
      (if i % 2 = 1 then (if 9 < 2 * d then 2 * d - 9 else 2 * d) else d) +
        luhnSpecSum (i + 1) ds

/-- The C4 property, worded from the specification: twelve characters, the
first two uppercase letters, the last a digit, the middle nine uppercase
alphanumeric, and the Luhn total of the expanded digit string divisible by
ten. -/
def IsinSpec (s : List Char) : Prop :=
  s.length = 12 ∧
  (∀ c ∈ s.take 2, isUpperAZ c = true) ∧
  (∀ c ∈ s.drop 11, c.isDigit = true) ∧
  (∀ c ∈ (s.drop 2).take 9, isUpperOrDigit c = true) ∧
  luhnSpecSum 0 (isinExpand s).reverse % 10 = 0

theorem isDigit_toNat {c : Char} (h : c.isDigit = true) :
    48 ≤ c.toNat ∧ c.toNat ≤ 57 := by
  simp only [Char.isDigit, Bool.and_eq_true, decide_eq_true_eq, ge_iff_le] at h
  exact ⟨h.1, h.2⟩

theorem isUpperAZ_toNat {c : Char} (h : isUpperAZ c = true) :
    65 ≤ c.toNat ∧ c.toNat ≤ 90 := by
  unfold isUpperAZ at h
  simp only [Bool.and_eq_true, decide_eq_true_eq] at h
  exact ⟨h.1, h.2⟩

theorem isUpperAZ_eq_alpha_upper (c : Char) :
    isUpperAZ c = (c.isAlpha && c.isUpper) := by
  unfold isUpperAZ Char.isAlpha Char.isLower Char.isUpper
  rcases h1 : decide ('A' ≤ c) <;> rcases h2 : decide (c ≤ 'Z') <;>
    simp_all [Char.le_def]

theorem natToDigitChars_vals {n : Nat} (h1 : 10 ≤ n) (h2 : n ≤ 35) :
    (natToDigitChars n).map (fun c => c.toNat - 48) = [n / 10, n % 10] ∧
      n / 10 ≤ 9 ∧ n % 10 ≤ 9 := by
  interval_cases n <;> exact ⟨by decide, by decide, by decide⟩

/-- On a string of digits and uppercase letters, the validator's digit
string exists and its digit values are exactly the specification's
expansion, all of them single digits. -/
theorem isinDigitString_expand :
    ∀ {s : List Char}, (∀ c ∈ s, (c.isDigit || (c.isAlpha && c.isUpper)) = true) →
    ∃ ds, isinDigitString s = some ds ∧
      ds.map (fun c => c.toNat - 48) = isinExpand s ∧ ∀ v ∈ isinExpand s, v ≤ 9 := by
  intro s
  induction s with
  | nil => exact fun _ => ⟨[], rfl, rfl, by simp [isinExpand]⟩
  | cons c rest ih =>
      intro h
      obtain ⟨ds, hds, hmap, hle⟩ := ih fun x hx => h x (List.mem_cons_of_mem _ hx)
      have hc := h c (List.mem_cons_self _ _)
      have hexp : isinExpand (c :: rest) =
          (if c.isDigit then [c.toNat - 48] else [letterVal c / 10, letterVal c % 10]) ++
            isinExpand rest := by
        unfold isinExpand
        rw [List.flatMap_cons]
      by_cases hd : c.isDigit = true
      · refine ⟨[c] ++ ds, ?_, ?_, ?_⟩
        · unfold isinDigitString isinDigitChunk
          rw [if_pos hd, hds]
        · rw [hexp, if_pos hd, List.map_append, hmap]
          rfl
        · intro v hv
          rw [hexp, if_pos hd] at hv
          rcases List.mem_append.mp hv with hv1 | hv2
          · rw [List.mem_singleton] at hv1
            subst hv1
            have := isDigit_toNat hd
            omega
          · exact hle v hv2
      · have hup : (c.isAlpha && c.isUpper) = true := by
          rcases Bool.or_eq_true_iff.mp hc with h' | h'
          · exact absurd h' hd
          · exact h'
        have hupAZ : isUpperAZ c = true := by rw [isUpperAZ_eq_alpha_upper]; exact hup
        have hrange := isUpperAZ_toNat hupAZ
        have hval : c.toNat - 65 + 10 = letterVal c := by
          unfold letterVal
          omega
        have hlv1 : 10 ≤ letterVal c := by unfold letterVal; omega
        have hlv2 : letterVal c ≤ 35 := by unfold letterVal; omega
        obtain ⟨hvals, hq1, hq2⟩ := natToDigitChars_vals hlv1 hlv2
        refine ⟨natToDigitChars (letterVal c) ++ ds, ?_, ?_, ?_⟩
        · unfold isinDigitString isinDigitChunk
          rw [if_neg hd, if_pos hup, hds, hval]
        · rw [hexp, if_neg hd, List.map_append, hmap, hvals]
        · intro v hv
          rw [hexp, if_neg hd] at hv
          rcases List.mem_append.mp hv with hv1 | hv2
          · rcases List.mem_cons.mp hv1 with rfl | hv1'
            · exact hq1
            · rw [List.mem_singleton] at hv1'
              subst hv1'
              exact hq2
          · exact hle v hv2

theorem luhnSpecSum_cons (i d : Nat) (ds : List Nat) :
    luhnSpecSum i (d :: ds) =
      (if i % 2 = 1 then (if 9 < 2 * d then 2 * d - 9 else 2 * d) else d) +
        luhnSpecSum (i + 1) ds := rfl

theorem luhnStep_spec {i d : Nat} (hd : d ≤ 9) :
    luhnStep i d = if i % 2 = 1 then (if 9 < 2 * d then 2 * d - 9 else 2 * d) else d := by
  unfold luhnStep
  by_cases hi : i % 2 = 1
  · rw [if_pos (beq_iff_eq.mpr hi), if_pos hi]
    show (if d * 2 > 9 then d * 2 / 10 + d * 2 % 10 else d * 2) = _
    split_ifs <;> omega
  · rw [if_neg (by simpa using hi), if_neg hi]

/-- The validator's enumerate-and-fold Luhn total is the specification's
recursive right-to-left sum over the digit values. -/
theorem luhn_fold_eq :
    ∀ (lc : List Char) (i t : Nat), (∀ c ∈ lc, c.toNat - 48 ≤ 9) →
      (lc.enumFrom i).foldl (fun t p => t + luhnStep p.1 (p.2.toNat - 48)) t =
        t + luhnSpecSum i (lc.map (fun c => c.toNat - 48)) := by
  intro lc
  induction lc with
  | nil => intro i t _; simp [luhnSpecSum]
  | cons c rest ih =>
      intro i t hle
      have h1 : ((c :: rest).enumFrom i).foldl
          (fun t p => t + luhnStep p.1 (p.2.toNat - 48)) t =
          (rest.enumFrom (i + 1)).foldl (fun t p => t + luhnStep p.1 (p.2.toNat - 48))
            (t + luhnStep i (c.toNat - 48)) := by
        rw [List.enumFrom_cons, List.foldl_cons]
      rw [h1, ih (i + 1) _ fun x hx => hle x (List.mem_cons_of_mem _ hx),
        List.map_cons, luhnSpecSum_cons, luhnStep_spec (hle c (List.mem_cons_self _ _))]
      omega

/-- The last element of a twelve-character string is the singleton left by
dropping eleven characters. -/
theorem drop11_eq {s : List Char} (hlen : s.length = 12) :
    s.drop 11 = [s.getLastD ' '] := by
  have h11 : 11 < s.length := by omega
  rw [List.drop_eq_getElem_cons h11, List.drop_eq_nil_of_le (by omega)]
  have hlast : s.getLastD ' ' = s[11] := by
    rw [List.getLastD_eq_getLast?, List.getLast?_eq_getElem?, hlen]
    rw [List.getElem?_eq_getElem (by omega)]
    rfl
  rw [hlast]

/-- Splitting the per-position format facts into one classification of
every character of the string. -/
theorem class_of_parts {s : List Char}
    (h2 : ∀ c ∈ s.take 2, isUpperAZ c = true)
    (h11 : ∀ c ∈ s.drop 11, c.isDigit = true)
    (hm : ∀ c ∈ (s.drop 2).take 9, isUpperOrDigit c = true) :
    ∀ c ∈ s, (c.isDigit || (c.isAlpha && c.isUpper)) = true := by
  intro c hc
  rw [← List.take_append_drop 2 s] at hc
  rcases List.mem_append.mp hc with hc1 | hc2
  · rw [Bool.or_eq_true_iff]
    right
    rw [← isUpperAZ_eq_alpha_upper]
    exact h2 c hc1
  · rw [← List.take_append_drop 9 (s.drop 2)] at hc2
    rcases List.mem_append.mp hc2 with hc3 | hc4
    · have := hm c hc3
      unfold isUpperOrDigit at this
      rcases Bool.or_eq_true_iff.mp this with h' | h'
      · rw [Bool.or_eq_true_iff]
        right
        rw [← isUpperAZ_eq_alpha_upper]
        exact h'
      · rw [Bool.or_eq_true_iff]
        exact Or.inl h'
    · have hdd : (s.drop 2).drop 9 = s.drop 11 := by
        rw [List.drop_drop]
      rw [hdd] at hc4
      rw [Bool.or_eq_true_iff]
      exact Or.inl (h11 c hc4)

/-- The boolean gate structure of is_valid_isin, spelled out. -/
theorem is_valid_isin_parts (s : List Char) :
    is_valid_isin s = true ↔
      s.length = 12 ∧
      ((s.take 2).all Char.isAlpha = true ∧ (s.take 2).all Char.isUpper = true) ∧
      (s.getLastD ' ').isDigit = true ∧
      (((s.drop 2).take 9).all fun c => c.isDigit || (c.isAlpha && c.isUpper)) = true ∧
      ∃ ds, isinDigitString s = some ds ∧
        ((ds.reverse.enum).foldl (fun t p => t + luhnStep p.1 (p.2.toNat - 48)) 0) % 10
          = 0 := by
  unfold is_valid_isin
  constructor
  · intro h
    split_ifs at h with h1 h2 h3 h4 h5
    cases hds : isinDigitString s with
    | none => rw [hds] at h; exact absurd h (by simp)
    | some ds =>
        rw [hds] at h
        simp only [Bool.or_eq_true, Bool.not_eq_true', beq_iff_eq, List.isEmpty_iff,
          not_or, Bool.not_eq_false] at h1 h2 h3 h4 h5
        refine ⟨h1.2, ⟨h2.1, h2.2⟩, h3, h5, ds, rfl, ?_⟩
        simpa using h
  · rintro ⟨hlen, ⟨ha, hu⟩, hlast, hmid, ds, hds, hmod⟩
    have hno : ¬ (s.isEmpty || !(s.length == 12)) = true := by
      simp [List.isEmpty_iff, hlen]
      intro h0
      rw [h0] at hlen
      exact absurd hlen (by simp)
    rw [if_neg hno, if_neg (by simp [ha, hu]),
      if_neg (by simp only [hlast]; decide)]
    have hmidne : ¬ ((s.drop 2).take 9).isEmpty = true := by
      rw [List.isEmpty_iff]
      intro h0
      have := congrArg List.length h0
      simp [hlen] at this
    have halnum : ((s.drop 2).take 9).all Char.isAlphanum = true := by
      rw [List.all_eq_true] at hmid ⊢
      intro c hc
      unfold Char.isAlphanum
      rcases Bool.or_eq_true_iff.mp (hmid c hc) with h' | h'
      · simp [h']
      · rw [Bool.and_eq_true] at h'
        simp [h'.1]
    rw [if_neg (by simp [hmidne, halnum]), if_neg (by simp [hmid]), hds]
    simpa using hmod

/-- C4: the validator accepts a string exactly when it has the twelve-
character uppercase format with a digit check character and the expanded
digit string passes the right-to-left Luhn mod-10 test of the
specification; everything else is rejected. -/
theorem C4_theorem (s : List Char) : is_valid_isin s = true ↔ IsinSpec s := by
  rw [is_valid_isin_parts]
  unfold IsinSpec
  constructor
  · rintro ⟨hlen, ⟨ha, hu⟩, hlast, hmid, ds, hds, hmod⟩
    rw [List.all_eq_true] at ha hu hmid
    have htake2 : ∀ c ∈ s.take 2, isUpperAZ c = true := by
      intro c hc
      rw [isUpperAZ_eq_alpha_upper, Bool.and_eq_true]
      exact ⟨ha c hc, hu c hc⟩
    have hlast' : ∀ c ∈ s.drop 11, c.isDigit = true := by
      intro c hc
      rw [drop11_eq hlen, List.mem_singleton] at hc
      subst hc
      exact hlast
    have hmid' : ∀ c ∈ (s.drop 2).take 9, isUpperOrDigit c = true := by
      intro c hc
      unfold isUpperOrDigit
      rcases Bool.or_eq_true_iff.mp (hmid c hc) with h' | h'
      · simp [h']
      · rw [← isUpperAZ_eq_alpha_upper] at h'
        simp [h']
    refine ⟨hlen, htake2, hlast', hmid', ?_⟩
    obtain ⟨ds', hds', hmap, hle⟩ :=
      isinDigitString_expand (class_of_parts htake2 hlast' hmid')
    rw [hds] at hds'
    obtain rfl : ds = ds' := Option.some_inj.mp hds' 
    have hrle : ∀ c ∈ ds.reverse, c.toNat - 48 ≤ 9 := by
      intro c hc
      refine hle _ ?_
      rw [← hmap]
      exact List.mem_map_of_mem _ (List.mem_reverse.mp hc)
    have hfold := luhn_fold_eq ds.reverse 0 0 hrle
    rw [List.enum] at hmod
    rw [hfold] at hmod
    rw [List.map_reverse, hmap] at hmod
    simpa using hmod
  · rintro ⟨hlen, htake2, hlast', hmid', hmod⟩
    have ha : (s.take 2).all Char.isAlpha = true := by
      rw [List.all_eq_true]
      intro c hc
      have := htake2 c hc
      rw [isUpperAZ_eq_alpha_upper, Bool.and_eq_true] at this
      exact this.1
    have hu : (s.take 2).all Char.isUpper = true := by
      rw [List.all_eq_true]
      intro c hc
      have := htake2 c hc
      rw [isUpperAZ_eq_alpha_upper, Bool.and_eq_true] at this
      exact this.2
    have hlast : (s.getLastD ' ').isDigit = true := by
      refine hlast' _ ?_
      rw [drop11_eq hlen]
      exact List.mem_singleton.mpr rfl
    have hmid : (((s.drop 2).take 9).all fun c =>
        c.isDigit || (c.isAlpha && c.isUpper)) = true := by
      rw [List.all_eq_true]
      intro c hc
      have := hmid' c hc
      unfold isUpperOrDigit at this
      rcases Bool.or_eq_true_iff.mp this with h' | h'
      · rw [isUpperAZ_eq_alpha_upper] at h'
        simp [h']
      · simp [h']
    obtain ⟨ds, hds, hmap, hle⟩ :=
      isinDigitString_expand (class_of_parts htake2 hlast' hmid')
    refine ⟨hlen, ⟨ha, hu⟩, hlast, hmid, ds, hds, ?_⟩
    have hrle : ∀ c ∈ ds.reverse, c.toNat - 48 ≤ 9 := by
      intro c hc
      refine hle _ ?_
      rw [← hmap]
      exact List.mem_map_of_mem _ (List.mem_reverse.mp hc)
    have hfold := luhn_fold_eq ds.reverse 0 0 hrle
    rw [List.enum, hfold, List.map_reverse, hmap]
    simpa using hmod

end InvestOS
